import Mathlib

/-!
# Orbit geometry of the solar-system visualization

A shallow embedding of the orbital-mechanics core of the repository:
the Kepler-equation Newton solver `solveKepler`, the orbit-polyline
generator `createOrbitLineFromElements` (fixed-point eccentric-anomaly
iteration, true anomaly via `atan2`, radius, rotation to ecliptic
coordinates, internal scaling by `BASE_SCALE` with a y/z axis swap),
and the per-frame position computation of the `animate` loop.
JavaScript doubles are idealized as real numbers; `Math.sin`, `Math.cos`,
`Math.sqrt` and `Math.atan2` become their exact real counterparts.
-/

set_option maxHeartbeats 1000000
set_option maxRecDepth 40000

namespace SolarSystem

noncomputable section

open Real

/-- Visualization scale constant (`const BASE_SCALE = 5000`). -/
def BASE_SCALE : ℝ := 5000

/-- Default `tolerance` argument of `solveKepler` (`1e-6`). -/
def keplerTolerance : ℝ := 1e-6

/-- Default `maxIter` argument of `solveKepler` (`20`). -/
def keplerMaxIter : ℕ := 20

/-- The body of the `solveKepler` loop with explicit fuel:
`for(i<fuel){ delta = E - e*sin(E) - M; if(|delta|<tol) break; E -= delta/(1-e*cos(E)) }`. -/
def solveKeplerLoop (M e : ℝ) : ℕ → ℝ → ℝ
  | 0, E => E
  | n + 1, E =>
    if |E - e * Real.sin E - M| < keplerTolerance then E
    else solveKeplerLoop M e n (E - (E - e * Real.sin E - M) / (1 - e * Real.cos E))

/-- `solveKepler(M, e)`: Newton iteration for Kepler's equation starting
from `E = M`, at most 20 iterations, early exit once the residual is
below the tolerance. -/
def solveKepler (M e : ℝ) : ℝ := solveKeplerLoop M e keplerMaxIter M

/-- One raw Newton step `E - (E - e*sin(E) - M) / (1 - e*cos(E))` (no
tolerance check). -/
def newtonStep (M e E : ℝ) : ℝ :=
  E - (E - e * Real.sin E - M) / (1 - e * Real.cos E)

/-- Orbital elements as consumed by the scripts: `{a, e, i, o (Ω), w (ω), ma}`. -/
structure OrbitalElements where
  a : ℝ
  e : ℝ
  i : ℝ
  o : ℝ
  w : ℝ
  ma : ℝ

/-- Modelled from the spec: the host builtin `Math.atan2(y, x)`
(`ν = atan2(√(1−e²)·sin E, cos E − e)`), the standard quadrant-aware
arctangent; the builtin itself is not part of the repository sources. -/
def atan2 (y x : ℝ) : ℝ :=
  if 0 < x then Real.arctan (y / x)
  else if x < 0 ∧ 0 ≤ y then Real.arctan (y / x) + π
  else if x < 0 ∧ y < 0 then Real.arctan (y / x) - π
  else if x = 0 ∧ 0 < y then π / 2
  else if x = 0 ∧ y < 0 then -(π / 2)
  else 0

/-- The fixed-point iteration of the polyline generator:
`let E = M; for(iter<n){ E = M + e*sin(E) }`. -/
def fixedPointE (M e : ℝ) : ℕ → ℝ
  | 0 => M
  | n + 1 => M + e * Real.sin (fixedPointE M e n)

/-- Mean anomaly of sample `j` of `segments`:
`M = (j / segments) * 2 * Math.PI`. -/
def sampleM (segments j : ℕ) : ℝ := ((j : ℝ) / (segments : ℝ)) * 2 * π

/-- Eccentric anomaly used for sample `j` by `createOrbitLineFromElements`:
five fixed-point iterations from `E = M`. -/
def sampleE (el : OrbitalElements) (segments j : ℕ) : ℝ :=
  fixedPointE (sampleM segments j) el.e 5

/-- Radius `r = a * (1 - e * cos E)` (used both by the polyline
generator and by the `animate` position computation). -/
def radius (a e E : ℝ) : ℝ := a * (1 - e * Real.cos E)

/-- True anomaly `ν = atan2(√(1 - e*e) * sin E, cos E - e)`. -/
def trueAnomaly (e E : ℝ) : ℝ :=
  atan2 (Real.sqrt (1 - e * e) * Real.sin E) (Real.cos E - e)

/-- The compact closed form used by the scripts for the ecliptic point:
`x = r*(cosΩ*cos(ν+ω) - sinΩ*sin(ν+ω)*cosi)`,
`y = r*(sinΩ*cos(ν+ω) + cosΩ*sin(ν+ω)*cosi)`,
`z = r*(sin(ν+ω)*sini)`. -/
def eclipticXYZ (r ν i Ω ω : ℝ) : ℝ × ℝ × ℝ :=
  (r * (Real.cos Ω * Real.cos (ν + ω) - Real.sin Ω * Real.sin (ν + ω) * Real.cos i),
   r * (Real.sin Ω * Real.cos (ν + ω) + Real.cos Ω * Real.sin (ν + ω) * Real.cos i),
   r * (Real.sin (ν + ω) * Real.sin i))

/-- The point actually pushed: `Vector3(x*BASE_SCALE, z*BASE_SCALE, y*BASE_SCALE)`
(y and z swapped, scaled inside the generator). -/
def swapScale (p : ℝ × ℝ × ℝ) : ℝ × ℝ × ℝ :=
  (p.1 * BASE_SCALE, p.2.2 * BASE_SCALE, p.2.1 * BASE_SCALE)

/-- Sample `j` of the orbit polyline of `createOrbitLineFromElements`:
eccentric anomaly by five fixed-point iterations, true anomaly, radius,
rotation to ecliptic coordinates, then the internal scale-and-swap. -/
def orbitSamplePoint (el : OrbitalElements) (segments j : ℕ) : ℝ × ℝ × ℝ :=
  swapScale (eclipticXYZ (radius el.a el.e (sampleE el segments j))
    (trueAnomaly el.e (sampleE el segments j)) el.i el.o el.w)

/-- `createOrbitLineFromElements(elements, segments)`: the list of points
pushed by the loop `for (let j = 0; j <= segments; j++)`. -/
def createOrbitLineFromElements (el : OrbitalElements) (segments : ℕ) :
    List (ℝ × ℝ × ℝ) :=
  (List.range (segments + 1)).map (orbitSamplePoint el segments)

/-- Per-frame planet position of the `animate` loop, as a function of the
current mean anomaly `M`: Newton-solved eccentric anomaly, true anomaly,
radius, ecliptic rotation, then the same internal scale-and-swap
(`p.mesh.position.set(x*BASE_SCALE, z*BASE_SCALE, y*BASE_SCALE)`). -/
def animatePosition (el : OrbitalElements) (M : ℝ) : ℝ × ℝ × ℝ :=
  swapScale (eclipticXYZ (radius el.a el.e (solveKepler M el.e))
    (trueAnomaly el.e (solveKepler M el.e)) el.i el.o el.w)

/-- Active rotation about the z-axis, as inlined in `createOrbitLine`:
`x1 = x*cosW - y*sinW; y1 = x*sinW + y*cosW; z1 = z`. -/
def rotZ (θ : ℝ) (p : ℝ × ℝ × ℝ) : ℝ × ℝ × ℝ :=
  (p.1 * Real.cos θ - p.2.1 * Real.sin θ,
   p.1 * Real.sin θ + p.2.1 * Real.cos θ,
   p.2.2)

/-- Active rotation about the x-axis, as inlined in `createOrbitLine`:
`x2 = x1; y2 = y1*cosI - z1*sinI; z2 = y1*sinI + z1*cosI`. -/
def rotX (θ : ℝ) (p : ℝ × ℝ × ℝ) : ℝ × ℝ × ℝ :=
  (p.1,
   p.2.1 * Real.cos θ - p.2.2 * Real.sin θ,
   p.2.1 * Real.sin θ + p.2.2 * Real.cos θ)

/-- Circular unit orbit in the reference plane (`a=1, e=0, i=Ω=ω=0`). -/
def exampleElements : OrbitalElements := ⟨1, 0, 0, 0, 0, 0⟩

/-- Out-of-contract elements: `a = -1 ≤ 0` and `e = 2 ≥ 1`. -/
def invalidElements : OrbitalElements := ⟨-1, 2, 0, 0, 0, 0⟩

end

/-!
## Verified fixed-point interval arithmetic

To settle the convergence claim about `solveKepler` on a concrete input we
evaluate the Newton iteration inside rigorous interval enclosures.  All
interval endpoints are integers interpreted at the fixed scale
`sc = 2 ^ 150` (an endpoint `n` denotes the real number `n / sc`); `sin`
and `cos` are enclosed by exact integer-rounded Taylor partial sums with
an explicit tail bound.  Everything below is executable, so a final
`decide` can run the 20 Newton steps inside the kernel.
-/

/-- The fixed-point scale: endpoints denote integer multiples of `2⁻¹⁵⁰`. -/
def sc : ℤ := 2 ^ 150

/-- Rounding-up integer division (for positive divisors). -/
def cdiv (a b : ℤ) : ℤ := -(-a / b)

/-- An interval with fixed-point endpoints `lo / sc` and `hi / sc`. -/
structure IvZ where
  lo : ℤ
  hi : ℤ

/-- `x` lies in the interval `I`. -/
def memI (x : ℝ) (I : IvZ) : Prop :=
  (I.lo : ℝ) / (sc : ℤ) ≤ x ∧ x ≤ (I.hi : ℝ) / (sc : ℤ)

/-- Difference of intervals. -/
def subIv (A B : IvZ) : IvZ := ⟨A.lo - B.hi, A.hi - B.lo⟩

/-- Enclosure of the rational number `p / q` (for `0 < q`). -/
def ratIv (p q : ℤ) : IvZ := ⟨p * sc / q, cdiv (p * sc) q⟩

/-- Multiplication by a nonnegative rational constant `p / q`. -/
def smulIv (p q : ℤ) (A : IvZ) : IvZ := ⟨A.lo * p / q, cdiv (A.hi * p) q⟩

/-- Quotient of intervals, for a denominator interval with `0 < B.lo`. -/
def divposIv (A B : IvZ) : IvZ :=
  ⟨min (A.lo * sc / B.lo) (A.lo * sc / B.hi),
   max (cdiv (A.hi * sc) B.lo) (cdiv (A.hi * sc) B.hi)⟩

/-- Numerator of the `k`-th sine Taylor term at the fixed-point value `c`. -/
def sinNum (c : ℤ) (k : ℕ) : ℤ := (-1) ^ k * c ^ (2 * k + 1)

/-- Denominator of the `k`-th sine Taylor term (in fixed-point scale). -/
def sinDen (k : ℕ) : ℤ := sc ^ (2 * k) * (Nat.factorial (2 * k + 1))

/-- Numerator of the `k`-th cosine Taylor term at the fixed-point value `c`. -/
def cosNum (c : ℤ) (k : ℕ) : ℤ := (-1) ^ k * c ^ (2 * k)

/-- Denominator of the `k`-th cosine Taylor term (before rescaling). -/
def cosDen (k : ℕ) : ℤ := sc ^ (2 * k) * (Nat.factorial (2 * k))

/-- Lower bound for the sine Taylor partial sum, each term rounded down. -/
def sinLoSum (c : ℤ) : ℕ → ℤ
  | 0 => 0
  | n + 1 => sinLoSum c n + sinNum c n / sinDen n

/-- Upper bound for the sine Taylor partial sum, each term rounded up. -/
def sinHiSum (c : ℤ) : ℕ → ℤ
  | 0 => 0
  | n + 1 => sinHiSum c n + cdiv (sinNum c n) (sinDen n)

/-- Lower bound for the cosine Taylor partial sum. -/
def cosLoSum (c : ℤ) : ℕ → ℤ
  | 0 => 0
  | n + 1 => cosLoSum c n + cosNum c n * sc / cosDen n

/-- Upper bound for the cosine Taylor partial sum. -/
def cosHiSum (c : ℤ) : ℕ → ℤ
  | 0 => 0
  | n + 1 => cosHiSum c n + cdiv (cosNum c n * sc) (cosDen n)

/-- Upper bound for the sine Taylor tail `2|x|^81/81!` after 40 terms. -/
def sinTailHi (c : ℤ) : ℤ := cdiv (2 * |c| ^ 81) (sc ^ 80 * (Nat.factorial 81)) + 1

/-- Upper bound for the cosine Taylor tail `2|x|^80/80!` after 40 terms. -/
def cosTailHi (c : ℤ) : ℤ := cdiv (2 * |c| ^ 80 * sc) (sc ^ 80 * (Nat.factorial 80)) + 1

/-- Interval enclosure of `sin`: Taylor bounds at the left endpoint widened
by the interval width (`sin` is 1-Lipschitz), falling back to `[-1, 1]` for
large arguments. -/
def sinIv (I : IvZ) : IvZ :=
  if -13 * sc ≤ I.lo ∧ I.lo ≤ 13 * sc then
    ⟨sinLoSum I.lo 40 - sinTailHi I.lo - (I.hi - I.lo),
     sinHiSum I.lo 40 + sinTailHi I.lo + (I.hi - I.lo)⟩
  else ⟨-sc, sc⟩

/-- Interval enclosure of `cos`, as for `sinIv`. -/
def cosIv (I : IvZ) : IvZ :=
  if -13 * sc ≤ I.lo ∧ I.lo ≤ 13 * sc then
    ⟨cosLoSum I.lo 40 - cosTailHi I.lo - (I.hi - I.lo),
     cosHiSum I.lo 40 + cosTailHi I.lo + (I.hi - I.lo)⟩
  else ⟨-sc, sc⟩

/-- `⌊sc · 10⁻⁶⌋`; `(tolZ + 1) / sc` exceeds the solver tolerance `1e-6`. -/
def tolZ : ℤ := sc / 1000000

/-- Enclosure of the Kepler residual `E - e·sin E - M` for `E ∈ I`,
`M = Mn/Md`, `e = en/ed`. -/
def deltaIv (Mn Md en ed : ℤ) (I : IvZ) : IvZ :=
  subIv (subIv I (smulIv en ed (sinIv I))) (ratIv Mn Md)

/-- Enclosure of the Newton denominator `1 - e·cos E` for `E ∈ I`. -/
def fprimeIv (en ed : ℤ) (I : IvZ) : IvZ :=
  subIv ⟨sc, sc⟩ (smulIv en ed (cosIv I))

/-- Checks that on `I` the solver surely does not hit the tolerance break
and that the Newton denominator is surely positive. -/
def okStep (Mn Md en ed : ℤ) (I : IvZ) : Bool :=
  decide (0 < (fprimeIv en ed I).lo) &&
    (decide (tolZ + 1 ≤ (deltaIv Mn Md en ed I).lo) ||
     decide ((deltaIv Mn Md en ed I).hi ≤ -(tolZ + 1)))

/-- Interval version of one Newton step. -/
def stepIv (Mn Md en ed : ℤ) (I : IvZ) : IvZ :=
  subIv I (divposIv (deltaIv Mn Md en ed I) (fprimeIv en ed I))

/-- Runs `n` interval Newton steps, recording whether every step was
certified by `okStep`. -/
def iterOk (Mn Md en ed : ℤ) : ℕ → IvZ → Bool × IvZ
  | 0, I => (true, I)
  | n + 1, I => ((okStep Mn Md en ed I && (iterOk Mn Md en ed n (stepIv Mn Md en ed I)).1),
                 (iterOk Mn Md en ed n (stepIv Mn Md en ed I)).2)

/-- The full certificate: all `n` steps of the solver run their Newton
update, and the final residual still exceeds the tolerance. -/
def keplerCheck (Mn Md en ed : ℤ) (n : ℕ) : Bool :=
  (iterOk Mn Md en ed n (ratIv Mn Md)).1 &&
    decide (tolZ + 1 ≤ (deltaIv Mn Md en ed (iterOk Mn Md en ed n (ratIv Mn Md)).2).lo)

noncomputable section

open Real

/-! ## Helper lemmas -/

/-- Once the residual is below the tolerance the loop leaves `E` unchanged
for any remaining fuel (the `break`). -/
lemma solveKeplerLoop_const (M e E : ℝ)
    (h : |E - e * Real.sin E - M| < keplerTolerance) :
    ∀ n, solveKeplerLoop M e n E = E := by
  intro n
  induction n with
  | zero => rfl
  | succ n _ => simp only [solveKeplerLoop, if_pos h]

/-- The fixed-point recursion is the `Nat.iterate` of `E ↦ M + e·sin E`. -/
lemma fixedPointE_eq_iterate (M e : ℝ) :
    ∀ n, fixedPointE M e n = (fun E => M + e * Real.sin E)^[n] M := by
  intro n
  induction n with
  | zero => rfl
  | succ n ih =>
    rw [Function.iterate_succ_apply']
    simp only [fixedPointE, ih]

/-- If `sin M = 0` the fixed-point iteration stays at `M`. -/
lemma fixedPointE_of_sin_eq_zero (M e : ℝ) (h : Real.sin M = 0) :
    ∀ n, fixedPointE M e n = M := by
  intro n
  induction n with
  | zero => rfl
  | succ n ih => simp only [fixedPointE, ih, h, mul_zero, add_zero]

lemma sampleM_zero (N : ℕ) : sampleM N 0 = 0 := by
  simp [sampleM]

lemma sampleM_last (N : ℕ) (hN : 0 < N) : sampleM N N = 2 * π := by
  rw [sampleM, div_self (by exact_mod_cast hN.ne' : (N : ℝ) ≠ 0)]
  ring

/-- Undoing a z-rotation. -/
lemma rotZ_neg_rotZ (θ : ℝ) (p : ℝ × ℝ × ℝ) : rotZ (-θ) (rotZ θ p) = p := by
  obtain ⟨x, y, z⟩ := p
  have h := Real.sin_sq_add_cos_sq θ
  simp only [rotZ, Real.cos_neg, Real.sin_neg, Prod.mk.injEq]
  refine ⟨by linear_combination x * h, by linear_combination y * h, trivial⟩

/-- Undoing an x-rotation. -/
lemma rotX_neg_rotX (θ : ℝ) (p : ℝ × ℝ × ℝ) : rotX (-θ) (rotX θ p) = p := by
  obtain ⟨x, y, z⟩ := p
  have h := Real.sin_sq_add_cos_sq θ
  simp only [rotX, Real.cos_neg, Real.sin_neg, Prod.mk.injEq]
  refine ⟨trivial, by linear_combination y * h, by linear_combination z * h⟩

/-- The first and the last sample of the polyline coincide. -/
lemma orbitSamplePoint_first_eq_last (el : OrbitalElements) (N : ℕ) (hN : 0 < N) :
    orbitSamplePoint el N 0 = orbitSamplePoint el N N := by
  have h0 : sampleE el N 0 = 0 := by
    rw [sampleE, sampleM_zero]
    exact fixedPointE_of_sin_eq_zero 0 el.e Real.sin_zero 5
  have h1 : sampleE el N N = 2 * π := by
    rw [sampleE, sampleM_last N hN]
    exact fixedPointE_of_sin_eq_zero (2 * π) el.e Real.sin_two_pi 5
  have hr : radius el.a el.e 0 = radius el.a el.e (2 * π) := by
    simp [radius, Real.cos_two_pi, Real.cos_zero]
  have hv : trueAnomaly el.e 0 = trueAnomaly el.e (2 * π) := by
    simp [trueAnomaly, Real.sin_two_pi, Real.cos_two_pi, Real.sin_zero, Real.cos_zero]
  rw [orbitSamplePoint, orbitSamplePoint, h0, h1, hr, hv]

/-!
### Soundness of the interval evaluator

Taylor remainder bounds for `sin` and `cos`, correctness of the
fixed-point interval operations, and soundness of the interval Newton
iteration with respect to `solveKeplerLoop`.
-/

lemma sin_term_ratio (x : ℝ) (m : ℕ)
    (hx2 : x ^ 2 ≤ (2 * (m:ℝ) + 2) * (2 * (m:ℝ) + 3) / 2) :
    |x| ^ (2 * m + 3) / ((2 * m + 3).factorial : ℝ) ≤
      |x| ^ (2 * m + 1) / ((2 * m + 1).factorial : ℝ) * (1 / 2) := by
  have hF : (0:ℝ) < ((2 * m + 1).factorial : ℝ) := by
    exact_mod_cast Nat.factorial_pos _
  have hD : (0:ℝ) < (2 * (m:ℝ) + 2) * (2 * (m:ℝ) + 3) := by positivity
  have h1 : |x| ^ (2 * m + 3) = |x| ^ (2 * m + 1) * x ^ 2 := by
    rw [show 2 * m + 3 = 2 * m + 1 + 2 by ring, pow_add, sq_abs]
  have h2 : (((2 * m + 3).factorial : ℕ) : ℝ) =
      ((2 * m + 1).factorial : ℝ) * ((2 * (m:ℝ) + 2) * (2 * (m:ℝ) + 3)) := by
    have e : (2 * m + 3).factorial = (2 * m + 1).factorial * ((2 * m + 2) * (2 * m + 3)) := by
      rw [show 2 * m + 3 = (2 * m + 2) + 1 by ring, Nat.factorial_succ,
        show 2 * m + 2 = (2 * m + 1) + 1 by ring, Nat.factorial_succ]
      ring
    rw [e]
    push_cast
    ring
  rw [h1, h2]
  have hq : x ^ 2 / ((2 * (m:ℝ) + 2) * (2 * (m:ℝ) + 3)) ≤ 1 / 2 := by
    rw [div_le_iff₀ hD]
    linarith
  have hnn : (0:ℝ) ≤ |x| ^ (2 * m + 1) / ((2 * m + 1).factorial : ℝ) := by positivity
  calc |x| ^ (2 * m + 1) * x ^ 2 /
        (((2 * m + 1).factorial : ℝ) * ((2 * (m:ℝ) + 2) * (2 * (m:ℝ) + 3)))
      = |x| ^ (2 * m + 1) / ((2 * m + 1).factorial : ℝ) *
          (x ^ 2 / ((2 * (m:ℝ) + 2) * (2 * (m:ℝ) + 3))) := (div_mul_div_comm _ _ _ _).symm
    _ ≤ |x| ^ (2 * m + 1) / ((2 * m + 1).factorial : ℝ) * (1 / 2) :=
        mul_le_mul_of_nonneg_left hq hnn

lemma sin_taylor_remainder (x : ℝ) (n : ℕ)
    (hx : x ^ 2 ≤ (2 * (n:ℝ) + 2) * (2 * (n:ℝ) + 3) / 2) :
    |Real.sin x - ∑ k in Finset.range n,
        (-1 : ℝ) ^ k * x ^ (2 * k + 1) / ((2 * k + 1).factorial : ℝ)| ≤
      2 * |x| ^ (2 * n + 1) / ((2 * n + 1).factorial : ℝ) := by
  have hs := Real.hasSum_sin x
  have hsm := hs.summable
  have hsplit := sum_add_tsum_nat_add (f := fun k : ℕ =>
    (-1 : ℝ) ^ k * x ^ (2 * k + 1) / ((2 * k + 1).factorial : ℝ)) n hsm
  rw [hs.tsum_eq] at hsplit
  have habsval : ∀ m : ℕ, |(-1 : ℝ) ^ m * x ^ (2 * m + 1) / ((2 * m + 1).factorial : ℝ)| =
      |x| ^ (2 * m + 1) / ((2 * m + 1).factorial : ℝ) := by
    intro m
    rw [abs_div, abs_mul, abs_pow, abs_pow, abs_neg, abs_one, one_pow, one_mul,
      abs_of_pos (by exact_mod_cast Nat.factorial_pos _ : (0:ℝ) < ((2 * m + 1).factorial : ℝ))]
  set B : ℝ := |x| ^ (2 * n + 1) / ((2 * n + 1).factorial : ℝ) with hB
  have hmaj : ∀ k : ℕ, |(-1 : ℝ) ^ (k + n) * x ^ (2 * (k + n) + 1) /
      ((2 * (k + n) + 1).factorial : ℝ)| ≤ B * (1 / 2) ^ k := by
    intro k
    induction k with
    | zero =>
      rw [habsval, zero_add, pow_zero, mul_one]
    | succ k ih =>
      have hx2 : x ^ 2 ≤ (2 * ((k + n : ℕ):ℝ) + 2) * (2 * ((k + n : ℕ):ℝ) + 3) / 2 := by
        have hk : (0:ℝ) ≤ ((k:ℕ):ℝ) := Nat.cast_nonneg k
        push_cast
        push_cast at hx
        nlinarith [Nat.cast_nonneg (α := ℝ) n]
      have hr := sin_term_ratio x (k + n) hx2
      rw [habsval] at ih ⊢
      have e1 : 2 * (k + 1 + n) + 1 = 2 * (k + n) + 3 := by ring
      rw [e1]
      calc |x| ^ (2 * (k + n) + 3) / (((2 * (k + n) + 3).factorial : ℕ) : ℝ)
          ≤ |x| ^ (2 * (k + n) + 1) / (((2 * (k + n) + 1).factorial : ℕ) : ℝ) * (1 / 2) := hr
        _ ≤ B * (1 / 2) ^ k * (1 / 2) :=
            mul_le_mul_of_nonneg_right ih (by norm_num)
        _ = B * (1 / 2) ^ (k + 1) := by ring
  have hgeo : Summable (fun k : ℕ => B * (1 / 2 : ℝ) ^ k) :=
    (summable_geometric_of_lt_one (by norm_num) (by norm_num)).mul_left B
  have habs : Summable (fun k : ℕ => |(-1 : ℝ) ^ (k + n) * x ^ (2 * (k + n) + 1) /
      ((2 * (k + n) + 1).factorial : ℝ)|) :=
    Summable.of_nonneg_of_le (fun k => abs_nonneg _) hmaj hgeo
  have htail : |tsum (fun k : ℕ => (-1 : ℝ) ^ (k + n) * x ^ (2 * (k + n) + 1) /
      ((2 * (k + n) + 1).factorial : ℝ))| ≤ 2 * B := by
    have hnorm : Summable (fun k : ℕ => ‖(-1 : ℝ) ^ (k + n) * x ^ (2 * (k + n) + 1) /
        ((2 * (k + n) + 1).factorial : ℝ)‖) := by
      simpa only [Real.norm_eq_abs] using habs
    have h1 := norm_tsum_le_tsum_norm hnorm
    simp only [Real.norm_eq_abs] at h1
    have h2 : tsum (fun k : ℕ => |(-1 : ℝ) ^ (k + n) * x ^ (2 * (k + n) + 1) /
        ((2 * (k + n) + 1).factorial : ℝ)|) ≤ tsum (fun k : ℕ => B * (1 / 2 : ℝ) ^ k) :=
      tsum_le_tsum hmaj habs hgeo
    have h3 : tsum (fun k : ℕ => B * (1 / 2 : ℝ) ^ k) = 2 * B := by
      rw [tsum_mul_left, tsum_geometric_of_lt_one (by norm_num) (by norm_num)]
      norm_num
      ring
    linarith
  have hfin : Real.sin x - ∑ k in Finset.range n,
      (-1 : ℝ) ^ k * x ^ (2 * k + 1) / ((2 * k + 1).factorial : ℝ) =
      tsum (fun k : ℕ => (-1 : ℝ) ^ (k + n) * x ^ (2 * (k + n) + 1) /
        ((2 * (k + n) + 1).factorial : ℝ)) := by
    linarith [hsplit]
  rw [hfin]
  calc |tsum (fun k : ℕ => (-1 : ℝ) ^ (k + n) * x ^ (2 * (k + n) + 1) /
      ((2 * (k + n) + 1).factorial : ℝ))| ≤ 2 * B := htail
    _ = 2 * |x| ^ (2 * n + 1) / ((2 * n + 1).factorial : ℝ) := by rw [hB]; ring

lemma cos_term_ratio (x : ℝ) (m : ℕ)
    (hx2 : x ^ 2 ≤ (2 * (m:ℝ) + 1) * (2 * (m:ℝ) + 2) / 2) :
    |x| ^ (2 * m + 2) / ((2 * m + 2).factorial : ℝ) ≤
      |x| ^ (2 * m) / ((2 * m).factorial : ℝ) * (1 / 2) := by
  have hF : (0:ℝ) < ((2 * m).factorial : ℝ) := by
    exact_mod_cast Nat.factorial_pos _
  have hD : (0:ℝ) < (2 * (m:ℝ) + 1) * (2 * (m:ℝ) + 2) := by positivity
  have h1 : |x| ^ (2 * m + 2) = |x| ^ (2 * m) * x ^ 2 := by
    rw [pow_add, sq_abs]
  have h2 : (((2 * m + 2).factorial : ℕ) : ℝ) =
      ((2 * m).factorial : ℝ) * ((2 * (m:ℝ) + 1) * (2 * (m:ℝ) + 2)) := by
    have e : (2 * m + 2).factorial = (2 * m).factorial * ((2 * m + 1) * (2 * m + 2)) := by
      rw [show 2 * m + 2 = (2 * m + 1) + 1 by ring, Nat.factorial_succ, Nat.factorial_succ]
      ring
    rw [e]
    push_cast
    ring
  rw [h1, h2]
  have hq : x ^ 2 / ((2 * (m:ℝ) + 1) * (2 * (m:ℝ) + 2)) ≤ 1 / 2 := by
    rw [div_le_iff₀ hD]
    linarith
  have hnn : (0:ℝ) ≤ |x| ^ (2 * m) / ((2 * m).factorial : ℝ) := by positivity
  calc |x| ^ (2 * m) * x ^ 2 /
        (((2 * m).factorial : ℝ) * ((2 * (m:ℝ) + 1) * (2 * (m:ℝ) + 2)))
      = |x| ^ (2 * m) / ((2 * m).factorial : ℝ) *
          (x ^ 2 / ((2 * (m:ℝ) + 1) * (2 * (m:ℝ) + 2))) := (div_mul_div_comm _ _ _ _).symm
    _ ≤ |x| ^ (2 * m) / ((2 * m).factorial : ℝ) * (1 / 2) :=
        mul_le_mul_of_nonneg_left hq hnn

lemma cos_taylor_remainder (x : ℝ) (n : ℕ)
    (hx : x ^ 2 ≤ (2 * (n:ℝ) + 1) * (2 * (n:ℝ) + 2) / 2) :
    |Real.cos x - ∑ k in Finset.range n,
        (-1 : ℝ) ^ k * x ^ (2 * k) / ((2 * k).factorial : ℝ)| ≤
      2 * |x| ^ (2 * n) / ((2 * n).factorial : ℝ) := by
  have hs := Real.hasSum_cos x
  have hsm := hs.summable
  have hsplit := sum_add_tsum_nat_add (f := fun k : ℕ =>
    (-1 : ℝ) ^ k * x ^ (2 * k) / ((2 * k).factorial : ℝ)) n hsm
  rw [hs.tsum_eq] at hsplit
  have habsval : ∀ m : ℕ, |(-1 : ℝ) ^ m * x ^ (2 * m) / ((2 * m).factorial : ℝ)| =
      |x| ^ (2 * m) / ((2 * m).factorial : ℝ) := by
    intro m
    rw [abs_div, abs_mul, abs_pow, abs_pow, abs_neg, abs_one, one_pow, one_mul,
      abs_of_pos (by exact_mod_cast Nat.factorial_pos _ : (0:ℝ) < ((2 * m).factorial : ℝ))]
  set B : ℝ := |x| ^ (2 * n) / ((2 * n).factorial : ℝ) with hB
  have hmaj : ∀ k : ℕ, |(-1 : ℝ) ^ (k + n) * x ^ (2 * (k + n)) /
      ((2 * (k + n)).factorial : ℝ)| ≤ B * (1 / 2) ^ k := by
    intro k
    induction k with
    | zero =>
      rw [habsval, zero_add, pow_zero, mul_one]
    | succ k ih =>
      have hx2 : x ^ 2 ≤ (2 * ((k + n : ℕ):ℝ) + 1) * (2 * ((k + n : ℕ):ℝ) + 2) / 2 := by
        push_cast
        nlinarith [Nat.cast_nonneg (α := ℝ) n, Nat.cast_nonneg (α := ℝ) k]
      have hr := cos_term_ratio x (k + n) hx2
      rw [habsval] at ih ⊢
      have e1 : 2 * (k + 1 + n) = 2 * (k + n) + 2 := by ring
      rw [e1]
      calc |x| ^ (2 * (k + n) + 2) / (((2 * (k + n) + 2).factorial : ℕ) : ℝ)
          ≤ |x| ^ (2 * (k + n)) / (((2 * (k + n)).factorial : ℕ) : ℝ) * (1 / 2) := hr
        _ ≤ B * (1 / 2) ^ k * (1 / 2) :=
            mul_le_mul_of_nonneg_right ih (by norm_num)
        _ = B * (1 / 2) ^ (k + 1) := by ring
  have hgeo : Summable (fun k : ℕ => B * (1 / 2 : ℝ) ^ k) :=
    (summable_geometric_of_lt_one (by norm_num) (by norm_num)).mul_left B
  have habs : Summable (fun k : ℕ => |(-1 : ℝ) ^ (k + n) * x ^ (2 * (k + n)) /
      ((2 * (k + n)).factorial : ℝ)|) :=
    Summable.of_nonneg_of_le (fun k => abs_nonneg _) hmaj hgeo
  have htail : |tsum (fun k : ℕ => (-1 : ℝ) ^ (k + n) * x ^ (2 * (k + n)) /
      ((2 * (k + n)).factorial : ℝ))| ≤ 2 * B := by
    have hnorm : Summable (fun k : ℕ => ‖(-1 : ℝ) ^ (k + n) * x ^ (2 * (k + n)) /
        ((2 * (k + n)).factorial : ℝ)‖) := by
      simpa only [Real.norm_eq_abs] using habs
    have h1 := norm_tsum_le_tsum_norm hnorm
    simp only [Real.norm_eq_abs] at h1
    have h2 : tsum (fun k : ℕ => |(-1 : ℝ) ^ (k + n) * x ^ (2 * (k + n)) /
        ((2 * (k + n)).factorial : ℝ)|) ≤ tsum (fun k : ℕ => B * (1 / 2 : ℝ) ^ k) :=
      tsum_le_tsum hmaj habs hgeo
    have h3 : tsum (fun k : ℕ => B * (1 / 2 : ℝ) ^ k) = 2 * B := by
      rw [tsum_mul_left, tsum_geometric_of_lt_one (by norm_num) (by norm_num)]
      norm_num
      ring
    linarith
  have hfin : Real.cos x - ∑ k in Finset.range n,
      (-1 : ℝ) ^ k * x ^ (2 * k) / ((2 * k).factorial : ℝ) =
      tsum (fun k : ℕ => (-1 : ℝ) ^ (k + n) * x ^ (2 * (k + n)) /
        ((2 * (k + n)).factorial : ℝ)) := by
    linarith [hsplit]
  rw [hfin]
  calc |tsum (fun k : ℕ => (-1 : ℝ) ^ (k + n) * x ^ (2 * (k + n)) /
      ((2 * (k + n)).factorial : ℝ))| ≤ 2 * B := htail
    _ = 2 * |x| ^ (2 * n) / ((2 * n).factorial : ℝ) := by rw [hB]; ring


lemma sc_pos : (0:ℤ) < sc := by norm_num [sc]

lemma scR_pos : (0:ℝ) < ((sc : ℤ) : ℝ) := by exact_mod_cast sc_pos

lemma int_div_cast_le {a b : ℤ} (hb : 0 < b) : ((a / b : ℤ) : ℝ) ≤ (a : ℝ) / (b : ℝ) := by
  rw [le_div_iff₀ (by exact_mod_cast hb : (0:ℝ) < (b:ℝ))]
  have h1 := Int.ediv_add_emod a b
  have h2 := Int.emod_nonneg a hb.ne'
  have h3 : a / b * b ≤ a := by linarith [h1, h2, mul_comm b (a / b)]
  exact_mod_cast h3

lemma le_cdiv_cast {a b : ℤ} (hb : 0 < b) : (a : ℝ) / (b : ℝ) ≤ ((cdiv a b : ℤ) : ℝ) := by
  have h := int_div_cast_le (a := -a) hb
  rw [cdiv]
  push_cast at h ⊢
  rw [neg_div] at h
  linarith

lemma subIv_mem {x y : ℝ} {A B : IvZ} (hx : memI x A) (hy : memI y B) :
    memI (x - y) (subIv A B) := by
  obtain ⟨h1, h2⟩ := hx
  obtain ⟨h3, h4⟩ := hy
  constructor
  · show ((A.lo - B.hi : ℤ) : ℝ) / ((sc : ℤ) : ℝ) ≤ x - y
    push_cast
    rw [sub_div]
    linarith
  · show x - y ≤ ((A.hi - B.lo : ℤ) : ℝ) / ((sc : ℤ) : ℝ)
    push_cast
    rw [sub_div]
    linarith

lemma ratIv_mem {p q : ℤ} (hq : 0 < q) : memI ((p : ℝ) / (q : ℝ)) (ratIv p q) := by
  have hqR : (0:ℝ) < (q : ℝ) := by exact_mod_cast hq
  have hkey : ((p * sc : ℤ) : ℝ) / (q : ℝ) / ((sc : ℤ) : ℝ) = (p : ℝ) / (q : ℝ) := by
    push_cast
    field_simp [scR_pos.ne']
    ring
  constructor
  · show ((p * sc / q : ℤ) : ℝ) / ((sc : ℤ) : ℝ) ≤ (p : ℝ) / (q : ℝ)
    rw [← hkey]
    gcongr
    · exact scR_pos.le
    · exact int_div_cast_le hq
  · show (p : ℝ) / (q : ℝ) ≤ ((cdiv (p * sc) q : ℤ) : ℝ) / ((sc : ℤ) : ℝ)
    rw [← hkey]
    gcongr
    · exact scR_pos.le
    · exact le_cdiv_cast hq

lemma smulIv_mem {p q : ℤ} (hp : 0 ≤ p) (hq : 0 < q) {x : ℝ} {A : IvZ} (hx : memI x A) :
    memI ((p : ℝ) / (q : ℝ) * x) (smulIv p q A) := by
  have hqR : (0:ℝ) < (q : ℝ) := by exact_mod_cast hq
  have hpq : (0:ℝ) ≤ (p : ℝ) / (q : ℝ) := by positivity
  obtain ⟨h1, h2⟩ := hx
  constructor
  · show ((A.lo * p / q : ℤ) : ℝ) / ((sc : ℤ) : ℝ) ≤ (p : ℝ) / (q : ℝ) * x
    have step1 : ((A.lo * p / q : ℤ) : ℝ) / ((sc : ℤ) : ℝ) ≤
        ((A.lo * p : ℤ) : ℝ) / (q : ℝ) / ((sc : ℤ) : ℝ) := by
      gcongr
      · exact scR_pos.le
      · exact int_div_cast_le hq
    have step2 : ((A.lo * p : ℤ) : ℝ) / (q : ℝ) / ((sc : ℤ) : ℝ) =
        (p : ℝ) / (q : ℝ) * ((A.lo : ℝ) / ((sc : ℤ) : ℝ)) := by
      push_cast
      field_simp [scR_pos.ne']
      ring
    have step3 : (p : ℝ) / (q : ℝ) * ((A.lo : ℝ) / ((sc : ℤ) : ℝ)) ≤
        (p : ℝ) / (q : ℝ) * x := mul_le_mul_of_nonneg_left h1 hpq
    linarith [step1, step2 ▸ step1]
  · show (p : ℝ) / (q : ℝ) * x ≤ ((cdiv (A.hi * p) q : ℤ) : ℝ) / ((sc : ℤ) : ℝ)
    have step1 : ((A.hi * p : ℤ) : ℝ) / (q : ℝ) / ((sc : ℤ) : ℝ) ≤
        ((cdiv (A.hi * p) q : ℤ) : ℝ) / ((sc : ℤ) : ℝ) := by
      gcongr
      · exact scR_pos.le
      · exact le_cdiv_cast hq
    have step2 : ((A.hi * p : ℤ) : ℝ) / (q : ℝ) / ((sc : ℤ) : ℝ) =
        (p : ℝ) / (q : ℝ) * ((A.hi : ℝ) / ((sc : ℤ) : ℝ)) := by
      push_cast
      field_simp [scR_pos.ne']
      ring
    have step3 : (p : ℝ) / (q : ℝ) * x ≤
        (p : ℝ) / (q : ℝ) * ((A.hi : ℝ) / ((sc : ℤ) : ℝ)) := mul_le_mul_of_nonneg_left h2 hpq
    linarith [step2 ▸ step1]

lemma divposIv_mem {x y : ℝ} {A B : IvZ} (hBlo : 0 < B.lo)
    (hx : memI x A) (hy : memI y B) : memI (x / y) (divposIv A B) := by
  obtain ⟨ha1, ha2⟩ := hx
  obtain ⟨hb1, hb2⟩ := hy
  have hscR := scR_pos
  have hbloR : (0:ℝ) < (B.lo : ℝ) := by exact_mod_cast hBlo
  have hblo' : (0:ℝ) < (B.lo : ℝ) / ((sc : ℤ) : ℝ) := by positivity
  have hypos : (0:ℝ) < y := lt_of_lt_of_le hblo' hb1
  have hbhi' : (0:ℝ) < (B.hi : ℝ) / ((sc : ℤ) : ℝ) := lt_of_lt_of_le hypos hb2
  have hbhiR : (0:ℝ) < (B.hi : ℝ) := by
    have hmul := mul_pos hbhi' hscR
    rwa [div_mul_cancel₀ _ hscR.ne'] at hmul
  have hBhiZ : 0 < B.hi := by exact_mod_cast hbhiR
  constructor
  · show ((min (A.lo * sc / B.lo) (A.lo * sc / B.hi) : ℤ) : ℝ) / ((sc : ℤ) : ℝ) ≤ x / y
    have hstep : (A.lo : ℝ) / ((sc : ℤ) : ℝ) / y ≤ x / y := by
      gcongr
    rcases le_or_lt 0 ((A.lo : ℝ) / ((sc : ℤ) : ℝ)) with hs | hs
    · have hcorner : ((A.lo * sc / B.hi : ℤ) : ℝ) / ((sc : ℤ) : ℝ) ≤
          (A.lo : ℝ) / ((sc : ℤ) : ℝ) / y := by
        have h1 : ((A.lo * sc / B.hi : ℤ) : ℝ) ≤ ((A.lo * sc : ℤ) : ℝ) / (B.hi : ℝ) :=
          int_div_cast_le hBhiZ
        have h2 : ((A.lo * sc : ℤ) : ℝ) / (B.hi : ℝ) / ((sc : ℤ) : ℝ) =
            (A.lo : ℝ) / ((sc : ℤ) : ℝ) / ((B.hi : ℝ) / ((sc : ℤ) : ℝ)) := by
          push_cast
          field_simp
          ring
        have h3 : (A.lo : ℝ) / ((sc : ℤ) : ℝ) / ((B.hi : ℝ) / ((sc : ℤ) : ℝ)) ≤
            (A.lo : ℝ) / ((sc : ℤ) : ℝ) / y :=
          div_le_div_of_nonneg_left hs hypos hb2
        calc ((A.lo * sc / B.hi : ℤ) : ℝ) / ((sc : ℤ) : ℝ)
            ≤ ((A.lo * sc : ℤ) : ℝ) / (B.hi : ℝ) / ((sc : ℤ) : ℝ) := by gcongr
          _ = (A.lo : ℝ) / ((sc : ℤ) : ℝ) / ((B.hi : ℝ) / ((sc : ℤ) : ℝ)) := h2
          _ ≤ (A.lo : ℝ) / ((sc : ℤ) : ℝ) / y := h3
      have hminle : ((min (A.lo * sc / B.lo) (A.lo * sc / B.hi) : ℤ) : ℝ) ≤
          ((A.lo * sc / B.hi : ℤ) : ℝ) := by
        exact_mod_cast min_le_right _ _
      calc ((min (A.lo * sc / B.lo) (A.lo * sc / B.hi) : ℤ) : ℝ) / ((sc : ℤ) : ℝ)
          ≤ ((A.lo * sc / B.hi : ℤ) : ℝ) / ((sc : ℤ) : ℝ) := by gcongr
        _ ≤ (A.lo : ℝ) / ((sc : ℤ) : ℝ) / y := hcorner
        _ ≤ x / y := hstep
    · have hcorner : ((A.lo * sc / B.lo : ℤ) : ℝ) / ((sc : ℤ) : ℝ) ≤
          (A.lo : ℝ) / ((sc : ℤ) : ℝ) / y := by
        have h1 : ((A.lo * sc / B.lo : ℤ) : ℝ) ≤ ((A.lo * sc : ℤ) : ℝ) / (B.lo : ℝ) :=
          int_div_cast_le hBlo
        have h2 : ((A.lo * sc : ℤ) : ℝ) / (B.lo : ℝ) / ((sc : ℤ) : ℝ) =
            (A.lo : ℝ) / ((sc : ℤ) : ℝ) / ((B.lo : ℝ) / ((sc : ℤ) : ℝ)) := by
          push_cast
          field_simp
          ring
        have h3 : (A.lo : ℝ) / ((sc : ℤ) : ℝ) / ((B.lo : ℝ) / ((sc : ℤ) : ℝ)) ≤
            (A.lo : ℝ) / ((sc : ℤ) : ℝ) / y := by
          rw [div_le_div_iff₀ hblo' hypos]
          nlinarith [hb1]
        calc ((A.lo * sc / B.lo : ℤ) : ℝ) / ((sc : ℤ) : ℝ)
            ≤ ((A.lo * sc : ℤ) : ℝ) / (B.lo : ℝ) / ((sc : ℤ) : ℝ) := by gcongr
          _ = (A.lo : ℝ) / ((sc : ℤ) : ℝ) / ((B.lo : ℝ) / ((sc : ℤ) : ℝ)) := h2
          _ ≤ (A.lo : ℝ) / ((sc : ℤ) : ℝ) / y := h3
      have hminle : ((min (A.lo * sc / B.lo) (A.lo * sc / B.hi) : ℤ) : ℝ) ≤
          ((A.lo * sc / B.lo : ℤ) : ℝ) := by
        exact_mod_cast min_le_left _ _
      calc ((min (A.lo * sc / B.lo) (A.lo * sc / B.hi) : ℤ) : ℝ) / ((sc : ℤ) : ℝ)
          ≤ ((A.lo * sc / B.lo : ℤ) : ℝ) / ((sc : ℤ) : ℝ) := by gcongr
        _ ≤ (A.lo : ℝ) / ((sc : ℤ) : ℝ) / y := hcorner
        _ ≤ x / y := hstep
  · show x / y ≤ ((max (cdiv (A.hi * sc) B.lo) (cdiv (A.hi * sc) B.hi) : ℤ) : ℝ) / ((sc : ℤ) : ℝ)
    have hstep : x / y ≤ (A.hi : ℝ) / ((sc : ℤ) : ℝ) / y := by
      gcongr
    rcases le_or_lt 0 ((A.hi : ℝ) / ((sc : ℤ) : ℝ)) with hs | hs
    · have hcorner : (A.hi : ℝ) / ((sc : ℤ) : ℝ) / y ≤
          ((cdiv (A.hi * sc) B.lo : ℤ) : ℝ) / ((sc : ℤ) : ℝ) := by
        have h3 : (A.hi : ℝ) / ((sc : ℤ) : ℝ) / y ≤
            (A.hi : ℝ) / ((sc : ℤ) : ℝ) / ((B.lo : ℝ) / ((sc : ℤ) : ℝ)) :=
          div_le_div_of_nonneg_left hs hblo' hb1
        have h2 : (A.hi : ℝ) / ((sc : ℤ) : ℝ) / ((B.lo : ℝ) / ((sc : ℤ) : ℝ)) =
            ((A.hi * sc : ℤ) : ℝ) / (B.lo : ℝ) / ((sc : ℤ) : ℝ) := by
          push_cast
          field_simp
          ring
        have h1 : ((A.hi * sc : ℤ) : ℝ) / (B.lo : ℝ) ≤ ((cdiv (A.hi * sc) B.lo : ℤ) : ℝ) :=
          le_cdiv_cast hBlo
        calc (A.hi : ℝ) / ((sc : ℤ) : ℝ) / y
            ≤ (A.hi : ℝ) / ((sc : ℤ) : ℝ) / ((B.lo : ℝ) / ((sc : ℤ) : ℝ)) := h3
          _ = ((A.hi * sc : ℤ) : ℝ) / (B.lo : ℝ) / ((sc : ℤ) : ℝ) := h2
          _ ≤ ((cdiv (A.hi * sc) B.lo : ℤ) : ℝ) / ((sc : ℤ) : ℝ) := by gcongr
      have hmaxle : ((cdiv (A.hi * sc) B.lo : ℤ) : ℝ) ≤
          ((max (cdiv (A.hi * sc) B.lo) (cdiv (A.hi * sc) B.hi) : ℤ) : ℝ) := by
        exact_mod_cast le_max_left _ _
      calc x / y ≤ (A.hi : ℝ) / ((sc : ℤ) : ℝ) / y := hstep
        _ ≤ ((cdiv (A.hi * sc) B.lo : ℤ) : ℝ) / ((sc : ℤ) : ℝ) := hcorner
        _ ≤ ((max (cdiv (A.hi * sc) B.lo) (cdiv (A.hi * sc) B.hi) : ℤ) : ℝ) / ((sc : ℤ) : ℝ) := by
            gcongr
    · have hcorner : (A.hi : ℝ) / ((sc : ℤ) : ℝ) / y ≤
          ((cdiv (A.hi * sc) B.hi : ℤ) : ℝ) / ((sc : ℤ) : ℝ) := by
        have h3 : (A.hi : ℝ) / ((sc : ℤ) : ℝ) / y ≤
            (A.hi : ℝ) / ((sc : ℤ) : ℝ) / ((B.hi : ℝ) / ((sc : ℤ) : ℝ)) := by
          rw [div_le_div_iff₀ hypos hbhi']
          nlinarith [hb2]
        have h2 : (A.hi : ℝ) / ((sc : ℤ) : ℝ) / ((B.hi : ℝ) / ((sc : ℤ) : ℝ)) =
            ((A.hi * sc : ℤ) : ℝ) / (B.hi : ℝ) / ((sc : ℤ) : ℝ) := by
          push_cast
          field_simp
          ring
        have h1 : ((A.hi * sc : ℤ) : ℝ) / (B.hi : ℝ) ≤ ((cdiv (A.hi * sc) B.hi : ℤ) : ℝ) :=
          le_cdiv_cast hBhiZ
        calc (A.hi : ℝ) / ((sc : ℤ) : ℝ) / y
            ≤ (A.hi : ℝ) / ((sc : ℤ) : ℝ) / ((B.hi : ℝ) / ((sc : ℤ) : ℝ)) := h3
          _ = ((A.hi * sc : ℤ) : ℝ) / (B.hi : ℝ) / ((sc : ℤ) : ℝ) := h2
          _ ≤ ((cdiv (A.hi * sc) B.hi : ℤ) : ℝ) / ((sc : ℤ) : ℝ) := by gcongr
      have hmaxle : ((cdiv (A.hi * sc) B.hi : ℤ) : ℝ) ≤
          ((max (cdiv (A.hi * sc) B.lo) (cdiv (A.hi * sc) B.hi) : ℤ) : ℝ) := by
        exact_mod_cast le_max_right _ _
      calc x / y ≤ (A.hi : ℝ) / ((sc : ℤ) : ℝ) / y := hstep
        _ ≤ ((cdiv (A.hi * sc) B.hi : ℤ) : ℝ) / ((sc : ℤ) : ℝ) := hcorner
        _ ≤ ((max (cdiv (A.hi * sc) B.lo) (cdiv (A.hi * sc) B.hi) : ℤ) : ℝ) / ((sc : ℤ) : ℝ) := by
            gcongr

lemma sinDen_pos (k : ℕ) : (0:ℤ) < sinDen k := by
  have h1 : (0:ℤ) < sc ^ (2 * k) := pow_pos sc_pos _
  have h2 : (0:ℤ) < ((2 * k + 1).factorial : ℤ) := by exact_mod_cast Nat.factorial_pos _
  exact mul_pos h1 h2

lemma cosDen_pos (k : ℕ) : (0:ℤ) < cosDen k := by
  have h1 : (0:ℤ) < sc ^ (2 * k) := pow_pos sc_pos _
  have h2 : (0:ℤ) < ((2 * k).factorial : ℤ) := by exact_mod_cast Nat.factorial_pos _
  exact mul_pos h1 h2

lemma sin_term_cast (c : ℤ) (k : ℕ) :
    ((sinNum c k : ℤ) : ℝ) / ((sinDen k : ℤ) : ℝ) / ((sc : ℤ) : ℝ) =
      (-1 : ℝ) ^ k * ((c : ℝ) / ((sc : ℤ) : ℝ)) ^ (2 * k + 1) / ((2 * k + 1).factorial : ℝ) := by
  have hsc := scR_pos
  have hf : (0:ℝ) < ((2 * k + 1).factorial : ℝ) := by exact_mod_cast Nat.factorial_pos _
  rw [sinNum, sinDen, div_pow]
  push_cast
  field_simp
  try ring
  try tauto

lemma cos_term_cast (c : ℤ) (k : ℕ) :
    ((cosNum c k * sc : ℤ) : ℝ) / ((cosDen k : ℤ) : ℝ) / ((sc : ℤ) : ℝ) =
      (-1 : ℝ) ^ k * ((c : ℝ) / ((sc : ℤ) : ℝ)) ^ (2 * k) / ((2 * k).factorial : ℝ) := by
  have hsc := scR_pos
  have hf : (0:ℝ) < ((2 * k).factorial : ℝ) := by exact_mod_cast Nat.factorial_pos _
  rw [cosNum, cosDen, div_pow]
  push_cast
  field_simp
  try ring
  try tauto

lemma sinLoSum_le (c : ℤ) (n : ℕ) :
    ((sinLoSum c n : ℤ) : ℝ) / ((sc : ℤ) : ℝ) ≤
      ∑ k in Finset.range n,
        (-1 : ℝ) ^ k * ((c : ℝ) / ((sc : ℤ) : ℝ)) ^ (2 * k + 1) / ((2 * k + 1).factorial : ℝ) := by
  induction n with
  | zero => simp [sinLoSum]
  | succ n ih =>
    rw [Finset.sum_range_succ]
    have hterm : ((sinNum c n / sinDen n : ℤ) : ℝ) / ((sc : ℤ) : ℝ) ≤
        (-1 : ℝ) ^ n * ((c : ℝ) / ((sc : ℤ) : ℝ)) ^ (2 * n + 1) / ((2 * n + 1).factorial : ℝ) := by
      rw [← sin_term_cast]
      gcongr
      · exact scR_pos.le
      · exact int_div_cast_le (sinDen_pos n)
    have hcast : ((sinLoSum c (n + 1) : ℤ) : ℝ) / ((sc : ℤ) : ℝ) =
        ((sinLoSum c n : ℤ) : ℝ) / ((sc : ℤ) : ℝ) +
          ((sinNum c n / sinDen n : ℤ) : ℝ) / ((sc : ℤ) : ℝ) := by
      show (((sinLoSum c n + sinNum c n / sinDen n : ℤ)) : ℝ) / ((sc : ℤ) : ℝ) = _
      push_cast
      ring
    rw [hcast]
    linarith

lemma sinHiSum_ge (c : ℤ) (n : ℕ) :
    ∑ k in Finset.range n,
        (-1 : ℝ) ^ k * ((c : ℝ) / ((sc : ℤ) : ℝ)) ^ (2 * k + 1) / ((2 * k + 1).factorial : ℝ) ≤
      ((sinHiSum c n : ℤ) : ℝ) / ((sc : ℤ) : ℝ) := by
  induction n with
  | zero => simp [sinHiSum]
  | succ n ih =>
    rw [Finset.sum_range_succ]
    have hterm : (-1 : ℝ) ^ n * ((c : ℝ) / ((sc : ℤ) : ℝ)) ^ (2 * n + 1) /
        ((2 * n + 1).factorial : ℝ) ≤ ((cdiv (sinNum c n) (sinDen n) : ℤ) : ℝ) / ((sc : ℤ) : ℝ) := by
      rw [← sin_term_cast]
      gcongr
      · exact scR_pos.le
      · exact le_cdiv_cast (sinDen_pos n)
    have hcast : ((sinHiSum c (n + 1) : ℤ) : ℝ) / ((sc : ℤ) : ℝ) =
        ((sinHiSum c n : ℤ) : ℝ) / ((sc : ℤ) : ℝ) +
          ((cdiv (sinNum c n) (sinDen n) : ℤ) : ℝ) / ((sc : ℤ) : ℝ) := by
      show (((sinHiSum c n + cdiv (sinNum c n) (sinDen n) : ℤ)) : ℝ) / ((sc : ℤ) : ℝ) = _
      push_cast
      ring
    rw [hcast]
    linarith

lemma cosLoSum_le (c : ℤ) (n : ℕ) :
    ((cosLoSum c n : ℤ) : ℝ) / ((sc : ℤ) : ℝ) ≤
      ∑ k in Finset.range n,
        (-1 : ℝ) ^ k * ((c : ℝ) / ((sc : ℤ) : ℝ)) ^ (2 * k) / ((2 * k).factorial : ℝ) := by
  induction n with
  | zero => simp [cosLoSum]
  | succ n ih =>
    rw [Finset.sum_range_succ]
    have hterm : ((cosNum c n * sc / cosDen n : ℤ) : ℝ) / ((sc : ℤ) : ℝ) ≤
        (-1 : ℝ) ^ n * ((c : ℝ) / ((sc : ℤ) : ℝ)) ^ (2 * n) / ((2 * n).factorial : ℝ) := by
      rw [← cos_term_cast]
      gcongr
      · exact scR_pos.le
      · exact int_div_cast_le (cosDen_pos n)
    have hcast : ((cosLoSum c (n + 1) : ℤ) : ℝ) / ((sc : ℤ) : ℝ) =
        ((cosLoSum c n : ℤ) : ℝ) / ((sc : ℤ) : ℝ) +
          ((cosNum c n * sc / cosDen n : ℤ) : ℝ) / ((sc : ℤ) : ℝ) := by
      show (((cosLoSum c n + cosNum c n * sc / cosDen n : ℤ)) : ℝ) / ((sc : ℤ) : ℝ) = _
      push_cast
      ring
    rw [hcast]
    linarith

lemma cosHiSum_ge (c : ℤ) (n : ℕ) :
    ∑ k in Finset.range n,
        (-1 : ℝ) ^ k * ((c : ℝ) / ((sc : ℤ) : ℝ)) ^ (2 * k) / ((2 * k).factorial : ℝ) ≤
      ((cosHiSum c n : ℤ) : ℝ) / ((sc : ℤ) : ℝ) := by
  induction n with
  | zero => simp [cosHiSum]
  | succ n ih =>
    rw [Finset.sum_range_succ]
    have hterm : (-1 : ℝ) ^ n * ((c : ℝ) / ((sc : ℤ) : ℝ)) ^ (2 * n) /
        ((2 * n).factorial : ℝ) ≤
        ((cdiv (cosNum c n * sc) (cosDen n) : ℤ) : ℝ) / ((sc : ℤ) : ℝ) := by
      rw [← cos_term_cast]
      gcongr
      · exact scR_pos.le
      · exact le_cdiv_cast (cosDen_pos n)
    have hcast : ((cosHiSum c (n + 1) : ℤ) : ℝ) / ((sc : ℤ) : ℝ) =
        ((cosHiSum c n : ℤ) : ℝ) / ((sc : ℤ) : ℝ) +
          ((cdiv (cosNum c n * sc) (cosDen n) : ℤ) : ℝ) / ((sc : ℤ) : ℝ) := by
      show (((cosHiSum c n + cdiv (cosNum c n * sc) (cosDen n) : ℤ)) : ℝ) / ((sc : ℤ) : ℝ) = _
      push_cast
      ring
    rw [hcast]
    linarith

lemma sinTail_le (c : ℤ) :
    2 * |(c : ℝ) / ((sc : ℤ) : ℝ)| ^ 81 / ((81).factorial : ℝ) ≤
      ((sinTailHi c : ℤ) : ℝ) / ((sc : ℤ) : ℝ) := by
  have hden : (0:ℤ) < sc ^ 80 * (Nat.factorial 81) := by
    have h1 : (0:ℤ) < sc ^ 80 := pow_pos sc_pos _
    have h2 : (0:ℤ) < ((81).factorial : ℤ) := by exact_mod_cast Nat.factorial_pos _
    exact mul_pos h1 h2
  have hfR : (0:ℝ) < ((81).factorial : ℝ) := by exact_mod_cast Nat.factorial_pos _
  have hkey : 2 * |(c : ℝ) / ((sc : ℤ) : ℝ)| ^ 81 / ((81).factorial : ℝ) =
      ((2 * |c| ^ 81 : ℤ) : ℝ) / ((sc ^ 80 * (Nat.factorial 81) : ℤ) : ℝ) / ((sc : ℤ) : ℝ) := by
    rw [abs_div, abs_of_pos scR_pos, div_pow]
    push_cast
    field_simp
    ring
  rw [hkey, sinTailHi]
  have h1 : ((2 * |c| ^ 81 : ℤ) : ℝ) / ((sc ^ 80 * (Nat.factorial 81) : ℤ) : ℝ) ≤
      ((cdiv (2 * |c| ^ 81) (sc ^ 80 * (Nat.factorial 81)) : ℤ) : ℝ) := le_cdiv_cast hden
  have h2 : ((cdiv (2 * |c| ^ 81) (sc ^ 80 * (Nat.factorial 81)) : ℤ) : ℝ) ≤
      ((cdiv (2 * |c| ^ 81) (sc ^ 80 * (Nat.factorial 81)) + 1 : ℤ) : ℝ) := by
    push_cast
    linarith
  push_cast at h1 h2 ⊢
  gcongr
  · exact scR_pos.le
  · linarith

lemma cosTail_le (c : ℤ) :
    2 * |(c : ℝ) / ((sc : ℤ) : ℝ)| ^ 80 / ((80).factorial : ℝ) ≤
      ((cosTailHi c : ℤ) : ℝ) / ((sc : ℤ) : ℝ) := by
  have hden : (0:ℤ) < sc ^ 80 * (Nat.factorial 80) := by
    have h1 : (0:ℤ) < sc ^ 80 := pow_pos sc_pos _
    have h2 : (0:ℤ) < ((80).factorial : ℤ) := by exact_mod_cast Nat.factorial_pos _
    exact mul_pos h1 h2
  have hfR : (0:ℝ) < ((80).factorial : ℝ) := by exact_mod_cast Nat.factorial_pos _
  have hkey : 2 * |(c : ℝ) / ((sc : ℤ) : ℝ)| ^ 80 / ((80).factorial : ℝ) =
      ((2 * |c| ^ 80 * sc : ℤ) : ℝ) / ((sc ^ 80 * (Nat.factorial 80) : ℤ) : ℝ) / ((sc : ℤ) : ℝ) := by
    rw [abs_div, abs_of_pos scR_pos, div_pow]
    push_cast
    field_simp [scR_pos.ne']
    rw [pow_succ]
    ring
  rw [hkey, cosTailHi]
  have h1 : ((2 * |c| ^ 80 * sc : ℤ) : ℝ) / ((sc ^ 80 * (Nat.factorial 80) : ℤ) : ℝ) ≤
      ((cdiv (2 * |c| ^ 80 * sc) (sc ^ 80 * (Nat.factorial 80)) : ℤ) : ℝ) := le_cdiv_cast hden
  push_cast at h1 ⊢

  gcongr
  · exact scR_pos.le
  · linarith

lemma abs_sin_sub_sin (a b : ℝ) : |Real.sin a - Real.sin b| ≤ |a - b| := by
  rw [Real.sin_sub_sin]
  have h1 : |Real.sin ((a - b) / 2)| ≤ |(a - b) / 2| := Real.abs_sin_le_abs
  have h2 : |Real.cos ((a + b) / 2)| ≤ 1 := Real.abs_cos_le_one _
  calc |2 * Real.sin ((a - b) / 2) * Real.cos ((a + b) / 2)|
      = 2 * |Real.sin ((a - b) / 2)| * |Real.cos ((a + b) / 2)| := by
        rw [abs_mul, abs_mul]
        norm_num
    _ ≤ 2 * |(a - b) / 2| * 1 := by
        apply mul_le_mul _ h2 (abs_nonneg _) (by positivity)
        apply mul_le_mul_of_nonneg_left h1 (by norm_num)
    _ = |a - b| := by
        rw [abs_div]
        norm_num
        ring

lemma abs_cos_sub_cos (a b : ℝ) : |Real.cos a - Real.cos b| ≤ |a - b| := by
  rw [Real.cos_sub_cos]
  have h1 : |Real.sin ((a - b) / 2)| ≤ |(a - b) / 2| := Real.abs_sin_le_abs
  have h2 : |Real.sin ((a + b) / 2)| ≤ 1 := Real.abs_sin_le_one _
  calc |(-2) * Real.sin ((a + b) / 2) * Real.sin ((a - b) / 2)|
      = 2 * |Real.sin ((a + b) / 2)| * |Real.sin ((a - b) / 2)| := by
        rw [abs_mul, abs_mul]
        norm_num
    _ ≤ 2 * 1 * |(a - b) / 2| := by
        apply mul_le_mul _ h1 (abs_nonneg _) (by positivity)
        apply mul_le_mul_of_nonneg_left h2 (by norm_num)
    _ = |a - b| := by
        rw [abs_div]
        norm_num
        ring

lemma sinIv_mem {x : ℝ} {I : IvZ} (hx : memI x I) : memI (Real.sin x) (sinIv I) := by
  obtain ⟨h1, h2⟩ := hx
  rw [sinIv]
  split_ifs with hc
  · obtain ⟨hc1, hc2⟩ := hc
    have hscR := scR_pos
    have hxc1 : (-13 : ℝ) ≤ (I.lo : ℝ) / ((sc : ℤ) : ℝ) := by
      rw [le_div_iff₀ hscR]
      have : ((-13 * sc : ℤ) : ℝ) ≤ ((I.lo : ℤ) : ℝ) := by exact_mod_cast hc1
      push_cast at this
      linarith
    have hxc2 : (I.lo : ℝ) / ((sc : ℤ) : ℝ) ≤ 13 := by
      rw [div_le_iff₀ hscR]
      have : ((I.lo : ℤ) : ℝ) ≤ ((13 * sc : ℤ) : ℝ) := by exact_mod_cast hc2
      push_cast at this
      linarith
    have hxcb : ((I.lo : ℝ) / ((sc : ℤ) : ℝ)) ^ 2 ≤
        (2 * ((40 : ℕ) : ℝ) + 2) * (2 * ((40 : ℕ) : ℝ) + 3) / 2 := by
      push_cast
      nlinarith
    have hrem := sin_taylor_remainder ((I.lo : ℝ) / ((sc : ℤ) : ℝ)) 40 hxcb
    have hS1 := sinLoSum_le I.lo 40
    have hS2 := sinHiSum_ge I.lo 40
    have hT := sinTail_le I.lo
    have hLip := abs_sin_sub_sin x ((I.lo : ℝ) / ((sc : ℤ) : ℝ))
    have hwidth : |x - (I.lo : ℝ) / ((sc : ℤ) : ℝ)| ≤
        (I.hi : ℝ) / ((sc : ℤ) : ℝ) - (I.lo : ℝ) / ((sc : ℤ) : ℝ) := by
      rw [abs_le]
      constructor <;> linarith
    obtain ⟨hr1, hr2⟩ := abs_le.mp hrem
    obtain ⟨hl1, hl2⟩ := abs_le.mp hLip
    have htail81 : 2 * |(I.lo : ℝ) / ((sc : ℤ) : ℝ)| ^ (2 * 40 + 1) /
        (((2 * 40 + 1).factorial : ℕ) : ℝ) =
        2 * |(I.lo : ℝ) / ((sc : ℤ) : ℝ)| ^ 81 / (((81).factorial : ℕ) : ℝ) := by
      norm_num
    rw [htail81] at hr1 hr2
    constructor
    · show ((sinLoSum I.lo 40 - sinTailHi I.lo - (I.hi - I.lo) : ℤ) : ℝ) / ((sc : ℤ) : ℝ) ≤
          Real.sin x
      have e : ((sinLoSum I.lo 40 - sinTailHi I.lo - (I.hi - I.lo) : ℤ) : ℝ) / ((sc : ℤ) : ℝ) =
          ((sinLoSum I.lo 40 : ℤ) : ℝ) / ((sc : ℤ) : ℝ) -
            ((sinTailHi I.lo : ℤ) : ℝ) / ((sc : ℤ) : ℝ) -
            ((I.hi : ℝ) / ((sc : ℤ) : ℝ) - (I.lo : ℝ) / ((sc : ℤ) : ℝ)) := by
        push_cast
        ring
      rw [e]
      linarith
    · show Real.sin x ≤
          ((sinHiSum I.lo 40 + sinTailHi I.lo + (I.hi - I.lo) : ℤ) : ℝ) / ((sc : ℤ) : ℝ)
      have e : ((sinHiSum I.lo 40 + sinTailHi I.lo + (I.hi - I.lo) : ℤ) : ℝ) / ((sc : ℤ) : ℝ) =
          ((sinHiSum I.lo 40 : ℤ) : ℝ) / ((sc : ℤ) : ℝ) +
            ((sinTailHi I.lo : ℤ) : ℝ) / ((sc : ℤ) : ℝ) +
            ((I.hi : ℝ) / ((sc : ℤ) : ℝ) - (I.lo : ℝ) / ((sc : ℤ) : ℝ)) := by
        push_cast
        ring
      rw [e]
      linarith
  · constructor
    · show ((-sc : ℤ) : ℝ) / ((sc : ℤ) : ℝ) ≤ Real.sin x
      have e : ((-sc : ℤ) : ℝ) / ((sc : ℤ) : ℝ) = -1 := by
        push_cast
        rw [neg_div, div_self scR_pos.ne']
      rw [e]
      exact Real.neg_one_le_sin x
    · show Real.sin x ≤ ((sc : ℤ) : ℝ) / ((sc : ℤ) : ℝ)
      rw [div_self scR_pos.ne']
      exact Real.sin_le_one x

lemma cosIv_mem {x : ℝ} {I : IvZ} (hx : memI x I) : memI (Real.cos x) (cosIv I) := by
  obtain ⟨h1, h2⟩ := hx
  rw [cosIv]
  split_ifs with hc
  · obtain ⟨hc1, hc2⟩ := hc
    have hscR := scR_pos
    have hxc1 : (-13 : ℝ) ≤ (I.lo : ℝ) / ((sc : ℤ) : ℝ) := by
      rw [le_div_iff₀ hscR]
      have : ((-13 * sc : ℤ) : ℝ) ≤ ((I.lo : ℤ) : ℝ) := by exact_mod_cast hc1
      push_cast at this
      linarith
    have hxc2 : (I.lo : ℝ) / ((sc : ℤ) : ℝ) ≤ 13 := by
      rw [div_le_iff₀ hscR]
      have : ((I.lo : ℤ) : ℝ) ≤ ((13 * sc : ℤ) : ℝ) := by exact_mod_cast hc2
      push_cast at this
      linarith
    have hxcb : ((I.lo : ℝ) / ((sc : ℤ) : ℝ)) ^ 2 ≤
        (2 * ((40 : ℕ) : ℝ) + 1) * (2 * ((40 : ℕ) : ℝ) + 2) / 2 := by
      push_cast
      nlinarith
    have hrem := cos_taylor_remainder ((I.lo : ℝ) / ((sc : ℤ) : ℝ)) 40 hxcb
    have hS1 := cosLoSum_le I.lo 40
    have hS2 := cosHiSum_ge I.lo 40
    have hT := cosTail_le I.lo
    have hLip := abs_cos_sub_cos x ((I.lo : ℝ) / ((sc : ℤ) : ℝ))
    have hwidth : |x - (I.lo : ℝ) / ((sc : ℤ) : ℝ)| ≤
        (I.hi : ℝ) / ((sc : ℤ) : ℝ) - (I.lo : ℝ) / ((sc : ℤ) : ℝ) := by
      rw [abs_le]
      constructor <;> linarith
    obtain ⟨hr1, hr2⟩ := abs_le.mp hrem
    obtain ⟨hl1, hl2⟩ := abs_le.mp hLip
    have htail80 : 2 * |(I.lo : ℝ) / ((sc : ℤ) : ℝ)| ^ (2 * 40) /
        (((2 * 40).factorial : ℕ) : ℝ) =
        2 * |(I.lo : ℝ) / ((sc : ℤ) : ℝ)| ^ 80 / (((80).factorial : ℕ) : ℝ) := by
      norm_num
    rw [htail80] at hr1 hr2
    constructor
    · show ((cosLoSum I.lo 40 - cosTailHi I.lo - (I.hi - I.lo) : ℤ) : ℝ) / ((sc : ℤ) : ℝ) ≤
          Real.cos x
      have e : ((cosLoSum I.lo 40 - cosTailHi I.lo - (I.hi - I.lo) : ℤ) : ℝ) / ((sc : ℤ) : ℝ) =
          ((cosLoSum I.lo 40 : ℤ) : ℝ) / ((sc : ℤ) : ℝ) -
            ((cosTailHi I.lo : ℤ) : ℝ) / ((sc : ℤ) : ℝ) -
            ((I.hi : ℝ) / ((sc : ℤ) : ℝ) - (I.lo : ℝ) / ((sc : ℤ) : ℝ)) := by
        push_cast
        ring
      rw [e]
      linarith
    · show Real.cos x ≤
          ((cosHiSum I.lo 40 + cosTailHi I.lo + (I.hi - I.lo) : ℤ) : ℝ) / ((sc : ℤ) : ℝ)
      have e : ((cosHiSum I.lo 40 + cosTailHi I.lo + (I.hi - I.lo) : ℤ) : ℝ) / ((sc : ℤ) : ℝ) =
          ((cosHiSum I.lo 40 : ℤ) : ℝ) / ((sc : ℤ) : ℝ) +
            ((cosTailHi I.lo : ℤ) : ℝ) / ((sc : ℤ) : ℝ) +
            ((I.hi : ℝ) / ((sc : ℤ) : ℝ) - (I.lo : ℝ) / ((sc : ℤ) : ℝ)) := by
        push_cast
        ring
      rw [e]
      linarith
  · constructor
    · show ((-sc : ℤ) : ℝ) / ((sc : ℤ) : ℝ) ≤ Real.cos x
      have e : ((-sc : ℤ) : ℝ) / ((sc : ℤ) : ℝ) = -1 := by
        push_cast
        rw [neg_div, div_self scR_pos.ne']
      rw [e]
      exact Real.neg_one_le_cos x
    · show Real.cos x ≤ ((sc : ℤ) : ℝ) / ((sc : ℤ) : ℝ)
      rw [div_self scR_pos.ne']
      exact Real.cos_le_one x

lemma lt_cdiv_like {a b : ℤ} (hb : 0 < b) : (a : ℝ) < ((a / b + 1 : ℤ) : ℝ) * (b : ℝ) := by
  have h1 := Int.ediv_add_emod a b
  have h2 := Int.emod_lt_of_pos a hb
  have h3 : a < (a / b + 1) * b := by nlinarith [h1, h2]
  exact_mod_cast h3

lemma tol_lt_tolZ : keplerTolerance < ((tolZ + 1 : ℤ) : ℝ) / ((sc : ℤ) : ℝ) := by
  have h := lt_cdiv_like (a := sc) (b := 1000000) (by norm_num)
  rw [keplerTolerance, lt_div_iff₀ scR_pos]
  rw [show ((1000000 : ℤ) : ℝ) = 1000000 by norm_num] at h
  have e1 : (1e-6 : ℝ) * 1000000 = 1 := by norm_num
  have hZ : tolZ = sc / 1000000 := rfl
  rw [hZ]
  nlinarith [scR_pos, h]

lemma one_mem_unit : memI (1 : ℝ) ⟨sc, sc⟩ := by
  constructor
  · show ((sc : ℤ) : ℝ) / ((sc : ℤ) : ℝ) ≤ 1
    rw [div_self scR_pos.ne']
  · show (1:ℝ) ≤ ((sc : ℤ) : ℝ) / ((sc : ℤ) : ℝ)
    rw [div_self scR_pos.ne']

lemma deltaIv_mem (Mn Md en ed : ℤ) (hMd : 0 < Md) (hen : 0 ≤ en) (hed : 0 < ed)
    {x : ℝ} {I : IvZ} (hx : memI x I) :
    memI (x - (en : ℝ) / (ed : ℝ) * Real.sin x - (Mn : ℝ) / (Md : ℝ))
      (deltaIv Mn Md en ed I) :=
  subIv_mem (subIv_mem hx (smulIv_mem hen hed (sinIv_mem hx))) (ratIv_mem hMd)

lemma fprimeIv_mem (en ed : ℤ) (hen : 0 ≤ en) (hed : 0 < ed)
    {x : ℝ} {I : IvZ} (hx : memI x I) :
    memI (1 - (en : ℝ) / (ed : ℝ) * Real.cos x) (fprimeIv en ed I) :=
  subIv_mem one_mem_unit (smulIv_mem hen hed (cosIv_mem hx))

lemma okStep_parts {Mn Md en ed : ℤ} {I : IvZ}
    (hok : okStep Mn Md en ed I = true) :
    0 < (fprimeIv en ed I).lo ∧
      (tolZ + 1 ≤ (deltaIv Mn Md en ed I).lo ∨
        (deltaIv Mn Md en ed I).hi ≤ -(tolZ + 1)) := by
  simpa only [okStep, Bool.and_eq_true, Bool.or_eq_true, decide_eq_true_eq] using hok

lemma okStep_no_break {Mn Md en ed : ℤ} (hMd : 0 < Md) (hen : 0 ≤ en) (hed : 0 < ed)
    {x : ℝ} {I : IvZ} (hx : memI x I) (hok : okStep Mn Md en ed I = true) :
    ¬ |x - (en : ℝ) / (ed : ℝ) * Real.sin x - (Mn : ℝ) / (Md : ℝ)| < keplerTolerance := by
  obtain ⟨-, hd⟩ := okStep_parts hok
  have hmem := deltaIv_mem Mn Md en ed hMd hen hed hx
  obtain ⟨hm1, hm2⟩ := hmem
  have htol := tol_lt_tolZ
  rcases hd with hd | hd
  · have hcast : ((tolZ + 1 : ℤ) : ℝ) / ((sc : ℤ) : ℝ) ≤
        ((deltaIv Mn Md en ed I).lo : ℝ) / ((sc : ℤ) : ℝ) := by
      gcongr
      all_goals first
      | exact scR_pos.le
      | exact_mod_cast hd
    intro habs
    rw [abs_lt] at habs
    linarith [habs.2]
  · have hcast : (((deltaIv Mn Md en ed I).hi : ℤ) : ℝ) / ((sc : ℤ) : ℝ) ≤
        ((-(tolZ + 1) : ℤ) : ℝ) / ((sc : ℤ) : ℝ) := by
      gcongr
      all_goals first
      | exact scR_pos.le
      | exact_mod_cast hd
    have hneg : ((-(tolZ + 1) : ℤ) : ℝ) / ((sc : ℤ) : ℝ) =
        -(((tolZ + 1 : ℤ) : ℝ) / ((sc : ℤ) : ℝ)) := by
      push_cast
      ring
    intro habs
    rw [abs_lt] at habs
    rw [hneg] at hcast
    linarith [habs.1]

lemma stepIv_mem {Mn Md en ed : ℤ} (hMd : 0 < Md) (hen : 0 ≤ en) (hed : 0 < ed)
    {x : ℝ} {I : IvZ} (hx : memI x I) (hok : okStep Mn Md en ed I = true) :
    memI (x - (x - (en : ℝ) / (ed : ℝ) * Real.sin x - (Mn : ℝ) / (Md : ℝ)) /
        (1 - (en : ℝ) / (ed : ℝ) * Real.cos x)) (stepIv Mn Md en ed I) :=
  subIv_mem hx (divposIv_mem (okStep_parts hok).1
    (deltaIv_mem Mn Md en ed hMd hen hed hx) (fprimeIv_mem en ed hen hed hx))

lemma iterOk_sound {Mn Md en ed : ℤ} (hMd : 0 < Md) (hen : 0 ≤ en) (hed : 0 < ed) :
    ∀ (n : ℕ) (I : IvZ) (x : ℝ), memI x I → (iterOk Mn Md en ed n I).1 = true →
      memI (solveKeplerLoop ((Mn : ℝ) / (Md : ℝ)) ((en : ℝ) / (ed : ℝ)) n x)
        ((iterOk Mn Md en ed n I).2) := by
  intro n
  induction n with
  | zero =>
    intro I x hx _
    exact hx
  | succ n ih =>
    intro I x hx hok
    have hok' : okStep Mn Md en ed I = true ∧
        (iterOk Mn Md en ed n (stepIv Mn Md en ed I)).1 = true := by
      simpa only [iterOk, Bool.and_eq_true] using hok
    have hnb := okStep_no_break hMd hen hed hx hok'.1
    show memI (solveKeplerLoop _ _ (n + 1) x) ((iterOk Mn Md en ed (n + 1) I).2)
    rw [solveKeplerLoop, if_neg hnb]
    have h2 : (iterOk Mn Md en ed (n + 1) I).2 =
        (iterOk Mn Md en ed n (stepIv Mn Md en ed I)).2 := rfl
    rw [h2]
    exact ih (stepIv Mn Md en ed I) _ (stepIv_mem hMd hen hed hx hok'.1) hok'.2

lemma keplerCheck_sound {Mn Md en ed : ℤ} (hMd : 0 < Md) (hen : 0 ≤ en) (hed : 0 < ed)
    {n : ℕ} (hchk : keplerCheck Mn Md en ed n = true) :
    keplerTolerance <
      |solveKeplerLoop ((Mn : ℝ) / (Md : ℝ)) ((en : ℝ) / (ed : ℝ)) n ((Mn : ℝ) / (Md : ℝ)) -
        (en : ℝ) / (ed : ℝ) *
          Real.sin (solveKeplerLoop ((Mn : ℝ) / (Md : ℝ)) ((en : ℝ) / (ed : ℝ)) n
            ((Mn : ℝ) / (Md : ℝ))) - (Mn : ℝ) / (Md : ℝ)| := by
  have hchk' : (iterOk Mn Md en ed n (ratIv Mn Md)).1 = true ∧
      tolZ + 1 ≤ (deltaIv Mn Md en ed (iterOk Mn Md en ed n (ratIv Mn Md)).2).lo := by
    simpa only [keplerCheck, Bool.and_eq_true, decide_eq_true_eq] using hchk
  have hy := iterOk_sound hMd hen hed n (ratIv Mn Md) ((Mn : ℝ) / (Md : ℝ))
    (ratIv_mem hMd) hchk'.1
  have hd := deltaIv_mem Mn Md en ed hMd hen hed hy
  obtain ⟨hm1, hm2⟩ := hd
  have hcast : ((tolZ + 1 : ℤ) : ℝ) / ((sc : ℤ) : ℝ) ≤
      ((deltaIv Mn Md en ed (iterOk Mn Md en ed n (ratIv Mn Md)).2).lo : ℝ) /
        ((sc : ℤ) : ℝ) := by
    gcongr
    all_goals first
    | exact scR_pos.le
    | exact_mod_cast hchk'.2
  have htol := tol_lt_tolZ
  have hfinal : keplerTolerance <
      solveKeplerLoop ((Mn : ℝ) / (Md : ℝ)) ((en : ℝ) / (ed : ℝ)) n ((Mn : ℝ) / (Md : ℝ)) -
        (en : ℝ) / (ed : ℝ) *
          Real.sin (solveKeplerLoop ((Mn : ℝ) / (Md : ℝ)) ((en : ℝ) / (ed : ℝ)) n
            ((Mn : ℝ) / (Md : ℝ))) - (Mn : ℝ) / (Md : ℝ) := by
    linarith
  calc keplerTolerance < _ := hfinal
    _ ≤ |_| := le_abs_self _

/-! ## Claim theorems -/


/-- The kernel-checked certificate: for `M = 148/25`, `e = 49/50` all 20
Newton steps run (no tolerance break) and the final residual enclosure
still exceeds the tolerance. -/
lemma keplerCheck_certificate : keplerCheck 148 25 49 50 20 = true := by decide

/-- C1 counterexample: `e = 49/50` satisfies `0 ≤ e < 1`, yet
`solveKepler(148/25, 49/50)` stops after its 20 Newton iterations with a
residual `|E - e·sin E - M|` still greater than `1e-6` (it is in fact
about `0.38`): Newton from `E = M` does not converge within 20 iterations
for every eccentricity below 1. -/
theorem solveKepler_nonconvergence_counterexample :
    (0:ℝ) ≤ 49/50 ∧ (49/50:ℝ) < 1 ∧
    ¬ |solveKepler (148/25) (49/50) -
        (49/50) * Real.sin (solveKepler (148/25) (49/50)) - 148/25| ≤ 1e-6 := by
  refine ⟨by norm_num, by norm_num, ?_⟩
  have h := keplerCheck_sound (by norm_num : (0:ℤ) < 25) (by norm_num : (0:ℤ) ≤ 49)
    (by norm_num : (0:ℤ) < 50) keplerCheck_certificate
  have e1 : ((148 : ℤ) : ℝ) / ((25 : ℤ) : ℝ) = 148 / 25 := by norm_num
  have e2 : ((49 : ℤ) : ℝ) / ((50 : ℤ) : ℝ) = 49 / 50 := by norm_num
  rw [e1, e2] at h
  rw [keplerTolerance] at h
  have h2 : (1e-6 : ℝ) <
      |solveKepler (148/25) (49/50) -
        (49/50) * Real.sin (solveKepler (148/25) (49/50)) - 148/25| := h
  exact fun habs => absurd habs (not_le.mpr h2)

/-- C1 (amended): `solveKepler` does run Newton iterations
`E ↦ E - (E - e·sin E - M)/(1 - e·cos E)` from the start `E = M` for at
most 20 iterations, and its result is either within the 1e-6 residual
tolerance (early break) or exactly the 20-fold Newton iterate; but the
1e-6 residual is not reached within 20 iterations for every `M` and every
`0 ≤ e < 1` (it fails at `M = 148/25`, `e = 49/50`). -/
theorem solveKepler_newton_method (M e : ℝ) :
    |solveKepler M e - e * Real.sin (solveKepler M e) - M| < keplerTolerance ∨
      solveKepler M e = (newtonStep M e)^[keplerMaxIter] M := by
  have key : ∀ (n : ℕ) (E : ℝ),
      |solveKeplerLoop M e n E - e * Real.sin (solveKeplerLoop M e n E) - M| <
          keplerTolerance ∨
        solveKeplerLoop M e n E = (newtonStep M e)^[n] E := by
    intro n
    induction n with
    | zero => exact fun E => Or.inr rfl
    | succ n ih =>
      intro E
      by_cases h : |E - e * Real.sin E - M| < keplerTolerance
      · left
        simp only [solveKeplerLoop, if_pos h]
        exact h
      · rcases ih (newtonStep M e E) with hl | hr
        · left
          simpa only [solveKeplerLoop, if_neg h] using hl
        · right
          simp only [solveKeplerLoop, if_neg h]
          rw [Function.iterate_succ_apply]
          exact hr
  exact key keplerMaxIter M

/-- C2 counterexample: with `segmentCount = 4` the generator does not
return 4 points — the loop `for (j = 0; j <= segments; j++)` pushes 5. -/
theorem orbitPolyline_length_counterexample :
    (createOrbitLineFromElements exampleElements 4).length ≠ 4 ∧
    (createOrbitLineFromElements exampleElements 4).length = 5 := by
  constructor <;> simp [createOrbitLineFromElements]

/-- C2 (amended): for `segmentCount = N > 0` the generator returns exactly
`N + 1` points, sampled at the `N + 1` evenly spaced mean anomalies
`2πj/N` for `j = 0..N`; the first and the last point are identical (the
loop is closed by duplicating the starting point, and line-loop rendering
closes the figure). -/
theorem orbitPolyline_closed_loop (el : OrbitalElements) (N : ℕ) (hN : 0 < N) :
    (createOrbitLineFromElements el N).length = N + 1 ∧
    (createOrbitLineFromElements el N).head? = some (orbitSamplePoint el N 0) ∧
    (createOrbitLineFromElements el N).getLast? = some (orbitSamplePoint el N N) ∧
    orbitSamplePoint el N 0 = orbitSamplePoint el N N := by
  refine ⟨by simp [createOrbitLineFromElements], ?_, ?_,
    orbitSamplePoint_first_eq_last el N hN⟩
  · rw [createOrbitLineFromElements, List.range_succ_eq_map]
    simp
  · rw [createOrbitLineFromElements, List.range_succ, List.map_append]
    simp

/-- C2 witness: the amended statement at the unit circular orbit with
`N = 4`. -/
theorem orbitPolyline_closed_loop_witness :
    0 < 4 ∧
    ((createOrbitLineFromElements exampleElements 4).length = 4 + 1 ∧
     (createOrbitLineFromElements exampleElements 4).head? =
       some (orbitSamplePoint exampleElements 4 0) ∧
     (createOrbitLineFromElements exampleElements 4).getLast? =
       some (orbitSamplePoint exampleElements 4 4) ∧
     orbitSamplePoint exampleElements 4 0 = orbitSamplePoint exampleElements 4 4) :=
  ⟨by norm_num, orbitPolyline_closed_loop exampleElements 4 (by norm_num)⟩

/-- C3: for `a > 0` and `0 ≤ e < 1` the radius `r = a(1 − e·cos E)`
satisfies the periapsis/apoapsis bounds `a(1−e) ≤ r ≤ a(1+e)` for every
eccentric anomaly `E`. -/
theorem radius_periapsis_apoapsis_bounds (a e E : ℝ)
    (ha : 0 < a) (he0 : 0 ≤ e) (he1 : e < 1) :
    a * (1 - e) ≤ radius a e E ∧ radius a e E ≤ a * (1 + e) := by
  have h1 := Real.neg_one_le_cos E
  have h2 := Real.cos_le_one E
  constructor
  · rw [radius]
    nlinarith [mul_nonneg (mul_nonneg ha.le he0) (sub_nonneg.2 h2)]
  · rw [radius]
    nlinarith [mul_nonneg (mul_nonneg ha.le he0) (by linarith : (0:ℝ) ≤ 1 + Real.cos E)]

/-- C3 witness: the bounds at `a = 2`, `e = 1/2`, `E = 0`. -/
theorem radius_periapsis_apoapsis_bounds_witness :
    (0:ℝ) < 2 ∧ (0:ℝ) ≤ 1/2 ∧ (1/2:ℝ) < 1 ∧
    (2 * (1 - 1/2) ≤ radius 2 (1/2) 0 ∧ radius 2 (1/2) 0 ≤ 2 * (1 + 1/2)) :=
  ⟨by norm_num, by norm_num, by norm_num,
   radius_periapsis_apoapsis_bounds 2 (1/2) 0 (by norm_num) (by norm_num) (by norm_num)⟩

/-- C4: the compact per-frame closed form for the ecliptic point equals
the rotation composition `Rz(Ω) · Rx(i) · Rz(ω)` applied to the
orbital-plane point `(r·cos ν, r·sin ν, 0)`. -/
theorem eclipticXYZ_eq_rotZ_rotX_rotZ (r ν i Ω ω : ℝ) :
    eclipticXYZ r ν i Ω ω =
      rotZ Ω (rotX i (rotZ ω (r * Real.cos ν, r * Real.sin ν, 0))) := by
  simp only [eclipticXYZ, rotZ, rotX, Prod.mk.injEq]
  refine ⟨?_, ?_, ?_⟩
  · rw [Real.cos_add, Real.sin_add]; ring
  · rw [Real.cos_add, Real.sin_add]; ring
  · rw [Real.sin_add]; ring

/-- C5 counterexample: no invalid-parameter error is signaled for
out-of-contract inputs — with `e = 2 ≥ 1` the Kepler solver returns the
estimate `0` normally, and with `a = -1 ≤ 0, e = 2` the polyline
generator still produces its full list of points. -/
theorem no_invalid_parameter_error_counterexample :
    solveKepler 0 2 = 0 ∧
    (createOrbitLineFromElements invalidElements 4).length = 5 := by
  constructor
  · show solveKeplerLoop 0 2 keplerMaxIter 0 = 0
    apply solveKeplerLoop_const
    rw [Real.sin_zero]
    norm_num [keplerTolerance]
  · simp [createOrbitLineFromElements]

/-- C5 (amended): the code never validates the elements: even when
`e ≥ 1` or `a ≤ 0` the orbit computation proceeds and returns its usual
numeric output (the full polyline of `N + 1` points), signaling no
error. -/
theorem invalid_elements_still_computed (el : OrbitalElements) (N : ℕ)
    (_h : 1 ≤ el.e ∨ el.a ≤ 0) :
    (createOrbitLineFromElements el N).length = N + 1 := by
  simp [createOrbitLineFromElements]

/-- C5 witness: the amended statement at `a = -1, e = 2`, `N = 4`. -/
theorem invalid_elements_still_computed_witness :
    (1 ≤ invalidElements.e ∨ invalidElements.a ≤ 0) ∧
    (createOrbitLineFromElements invalidElements 4).length = 4 + 1 :=
  ⟨Or.inl (by norm_num [invalidElements]),
   invalid_elements_still_computed invalidElements 4
     (Or.inl (by norm_num [invalidElements]))⟩

/-- C6 counterexample: the polyline generator does not return the
unscaled ecliptic-frame point: at the unit circular orbit and sample
`j = 0` the unscaled ecliptic point is `(1, 0, 0)` but the generator
stores `(5000, 0, 0)` — `BASE_SCALE` is applied inside the computation,
not by the caller. -/
theorem orbitPoint_scaled_counterexample :
    orbitSamplePoint exampleElements 4 0 = (5000, 0, 0) ∧
    eclipticXYZ (radius 1 0 0) (trueAnomaly 0 0) 0 0 0 = (1, 0, 0) ∧
    orbitSamplePoint exampleElements 4 0 ≠
      eclipticXYZ (radius 1 0 0) (trueAnomaly 0 0) 0 0 0 := by
  have hE : sampleE exampleElements 4 0 = 0 := by
    rw [sampleE, sampleM_zero]
    exact fixedPointE_of_sin_eq_zero 0 _ Real.sin_zero 5
  have hat : atan2 0 1 = 0 := by
    rw [atan2, if_pos (by norm_num : (0:ℝ) < 1)]
    simp
  have hv : trueAnomaly 0 0 = 0 := by
    rw [trueAnomaly]
    simp only [Real.sin_zero, Real.cos_zero, mul_zero, sub_zero]
    exact hat
  have hr : radius 1 0 0 = 1 := by simp [radius]
  have hxyz : eclipticXYZ (radius 1 0 0) (trueAnomaly 0 0) 0 0 0 = (1, 0, 0) := by
    rw [hv, hr]
    simp [eclipticXYZ]
  have hpt : orbitSamplePoint exampleElements 4 0 = (5000, 0, 0) := by
    rw [orbitSamplePoint, hE]
    show swapScale (eclipticXYZ (radius 1 0 0) (trueAnomaly 0 0) 0 0 0) = _
    rw [hxyz]
    simp [swapScale, BASE_SCALE]
  refine ⟨hpt, hxyz, ?_⟩
  rw [hpt, hxyz]
  intro hcontra
  have := congrArg Prod.fst hcontra
  norm_num at this

/-- C6 (amended): every point produced by the generator (and by the
per-frame `animate` computation) is the ecliptic-frame point with the
visualization scale `BASE_SCALE = 5000` applied inside the computation
and the y/z axes swapped for the rendering frame. -/
theorem scale_applied_inside (el : OrbitalElements) (segments j : ℕ) (M : ℝ) :
    orbitSamplePoint el segments j =
      swapScale (eclipticXYZ (radius el.a el.e (sampleE el segments j))
        (trueAnomaly el.e (sampleE el segments j)) el.i el.o el.w) ∧
    animatePosition el M =
      swapScale (eclipticXYZ (radius el.a el.e (solveKepler M el.e))
        (trueAnomaly el.e (solveKepler M el.e)) el.i el.o el.w) ∧
    ∀ p : ℝ × ℝ × ℝ, swapScale p = (p.1 * 5000, p.2.2 * 5000, p.2.1 * 5000) :=
  ⟨rfl, rfl, fun _ => rfl⟩

/-- C7: for every mean anomaly and every eccentricity (including `e ≥ 1`)
the solver stops after at most 20 iterations and returns the Newton
iterate it has reached at that point — no divergence, no error. -/
theorem solveKepler_bounded_iterations (M e : ℝ) :
    ∃ k ≤ keplerMaxIter, solveKepler M e = (newtonStep M e)^[k] M := by
  have key : ∀ (n : ℕ) (E : ℝ), ∃ k ≤ n,
      solveKeplerLoop M e n E = (newtonStep M e)^[k] E := by
    intro n
    induction n with
    | zero => exact fun E => ⟨0, le_rfl, rfl⟩
    | succ n ih =>
      intro E
      by_cases h : |E - e * Real.sin E - M| < keplerTolerance
      · exact ⟨0, Nat.zero_le _, by simp only [solveKeplerLoop, if_pos h,
          Function.iterate_zero_apply]⟩
      · obtain ⟨k, hk, heq⟩ := ih (newtonStep M e E)
        refine ⟨k + 1, Nat.succ_le_succ hk, ?_⟩
        simp only [solveKeplerLoop, if_neg h]
        rw [Function.iterate_succ_apply]
        exact heq
  exact key keplerMaxIter M

/-- C8: `solveKepler(0, e) = 0` exactly for every `e`, and
`solveKepler(M, 0) = M` exactly for every `M` (the residual at the
starting guess is already zero, so the loop exits immediately). -/
theorem solveKepler_special_cases :
    (∀ e : ℝ, solveKepler 0 e = 0) ∧ (∀ M : ℝ, solveKepler M 0 = M) := by
  constructor
  · intro e
    show solveKeplerLoop 0 e keplerMaxIter 0 = 0
    apply solveKeplerLoop_const
    rw [Real.sin_zero]
    norm_num [keplerTolerance]
  · intro M
    show solveKeplerLoop M 0 keplerMaxIter M = M
    apply solveKeplerLoop_const
    simp only [zero_mul, sub_zero, sub_self, abs_zero]
    norm_num [keplerTolerance]

/-- C9: applying the inverse rotations `Rz(−ω) · Rx(−i) · Rz(−Ω)` to the
rotated orbital-plane point `Rz(Ω) · Rx(i) · Rz(ω) · (x, y, 0)` recovers
the original point exactly. -/
theorem rotation_roundtrip (ω i Ω x y : ℝ) :
    rotZ (-ω) (rotX (-i) (rotZ (-Ω) (rotZ Ω (rotX i (rotZ ω (x, y, (0:ℝ))))))) =
      (x, y, 0) := by
  rw [rotZ_neg_rotZ, rotX_neg_rotX, rotZ_neg_rotZ]

/-- C10: the eccentric anomaly used for each polyline sample is exactly
the 5-fold iterate of the fixed-point map `E ↦ M + e·sin E` starting at
`E = M` (no tolerance check, not the Newton solver). -/
theorem sampleE_eq_fixedPoint_iterate (el : OrbitalElements) (segments j : ℕ) :
    sampleE el segments j =
      (fun E => sampleM segments j + el.e * Real.sin E)^[5] (sampleM segments j) :=
  fixedPointE_eq_iterate _ _ 5

end

end SolarSystem
